import Mathlib

/-!
Verification development for the 3dmre_stats repository
(`os_utils.py`, `dicom_and_file_utils.py`, `mmdi3d_utils.py`).

Python strings are modelled as `List Char` (`PyStr`).  The POSIX branch of
the path helpers is modelled (`os.name != 'nt'`); the Windows-path
conversion branch of `os_clean_path` (the `Path(PureWindowsPath(path))`
call taken when the input contains a backslash) is delegated by the source
to `pathlib` and is outside the model, so path-level theorems that
quantify over all inputs carry a backslash-free hypothesis where that
branch could fire.
-/

namespace MreStats

abbrev PyStr := List Char

def pys (s : String) : PyStr := s.toList

/-- The POSIX path separator. -/
def sep : Char := '/'

def dot : Char := '.'

/-! ## posixpath primitives used by `os_utils.py`

`splitP`, `joinP`, `dirnameP`, `basenameP` and `normpathP` model the
CPython `posixpath.split`, `posixpath.join` (binary form),
`posixpath.dirname`, `posixpath.basename` and `posixpath.normpath`
functions that `os_utils.py` calls through `os.path`. -/

/-- Python `str.rstrip('/')`. -/
def rstripSep (s : PyStr) : PyStr := (s.reverse.dropWhile (fun c => c = sep)).reverse

/-- `posixpath.split`: `head, tail = p[:i], p[i:]` at `i = p.rfind('/')+1`,
then `head` is right-stripped of separators when it is nonempty and not
all separators. -/
def splitP (p : PyStr) : PyStr × PyStr :=
  let tail := (p.reverse.takeWhile (fun c => c ≠ sep)).reverse
  let head0 := (p.reverse.dropWhile (fun c => c ≠ sep)).reverse
  let head :=
    if head0 ≠ [] ∧ head0.any (fun c => decide (c ≠ sep))
    then rstripSep head0
    else head0
  (head, tail)

def dirnameP (p : PyStr) : PyStr := (splitP p).1

def basenameP (p : PyStr) : PyStr := (splitP p).2

/-- `posixpath.join(a, b)`: `b` if it starts with the separator, else
`a + b` when `a` is empty or ends with the separator, else `a + '/' + b`. -/
def joinP (a b : PyStr) : PyStr :=
  if b.take 1 = [sep] then b
  else if a = [] ∨ a.getLast? = some sep then a ++ b
  else a ++ sep :: b

/-- Python `str.split(c)` (split on every occurrence, keeping empty
pieces; the empty string yields `[""]`). -/
def pySplitChar (c : Char) : PyStr → List PyStr
  | [] => [[]]
  | x :: xs =>
    if x = c then [] :: pySplitChar c xs
    else
      match pySplitChar c xs with
      | [] => [[x]]
      | p :: ps => (x :: p) :: ps

/-- Python `sep.join(comps)` for a one-character separator. -/
def interSep : List PyStr → PyStr
  | [] => []
  | [c] => c
  | c :: cs => c ++ sep :: interSep cs

/-- One step of `posixpath.normpath`'s component loop: skip empty and `.`
components, append a component unless it is a poppable `..`, else pop. -/
def normStep (initialSlashes : Nat) (newComps : List PyStr) (comp : PyStr) : List PyStr :=
  if comp = [] ∨ comp = [dot] then newComps
  else if comp ≠ [dot, dot] ∨ (initialSlashes = 0 ∧ newComps = [])
          ∨ (newComps ≠ [] ∧ newComps.getLast? = some [dot, dot])
  then newComps ++ [comp]
  else if newComps ≠ [] then newComps.dropLast
  else newComps

/-- The `initial_slashes` count of `posixpath.normpath`: one or two (but
not three or more) leading separators are preserved. -/
def initialSlashesOf (p : PyStr) : Nat :=
  if p.take 1 = [sep] then
    if p.take 2 = [sep, sep] ∧ p.take 3 ≠ [sep, sep, sep] then 2 else 1
  else 0

/-- `posixpath.normpath`: empty path maps to `"."`; components are split
on the separator, cleaned by `normStep`, and re-joined behind the
preserved leading separators. -/
def normpathP (p : PyStr) : PyStr :=
  if p = [] then [dot]
  else
    let comps := pySplitChar sep p
    let newComps := comps.foldl (normStep (initialSlashesOf p)) []
    let path := List.replicate (initialSlashesOf p) sep ++ interSep newComps
    if path = [] then [dot] else path

/-! ## `os_utils.py` -/

/-- `os_clean_path` (POSIX branch): normalize, then strip a leading double
separator down to a single one.  The Windows-backslash conversion branch
is outside the model (see the file header). -/
def osCleanPath (p : PyStr) : PyStr :=
  let q := normpathP p
  if q.take 2 = [sep, sep] then q.drop 1 else q

/-- The `while path != os.path.dirname(path)` loop of `num_path_elems`,
with explicit fuel; `numElemsFuel_stable` below shows that
`length + 1` fuel is enough, i.e. that the loop terminates. -/
def numElemsFuel : Nat → PyStr → Nat
  | 0, _ => 0
  | fuel + 1, p => if p = dirnameP p then 0 else 1 + numElemsFuel fuel (dirnameP p)

/-- `num_path_elems` with its default `clean_path_first=True`. -/
def numPathElems (p : PyStr) : Nat :=
  let q := osCleanPath p
  numElemsFuel (q.length + 1) q

/-- `num_path_elems` with `clean_path_first=False`. -/
def numPathElemsNoClean (p : PyStr) : Nat :=
  numElemsFuel (p.length + 1) p

/-- The `for i in range(1, n_elem)` loop of `path_split`: each iteration
splits the current head and joins the split-off piece onto the tail. -/
def pathSplitLoop : Nat → PyStr × PyStr → PyStr × PyStr
  | 0, ht => ht
  | k + 1, ht =>
    let hd := splitP ht.1
    pathSplitLoop k (hd.1, joinP hd.2 ht.2)

/-- `path_split(path, n_elem)` with its default `clean_path_first=True`:
clean, return `(path, '')` for `n_elem < 1`, else split off the last
element and run the loop `n_elem - 1` more times. -/
def pathSplit (p : PyStr) (nElem : Int) : PyStr × PyStr :=
  let q := osCleanPath p
  if nElem < 1 then (q, [])
  else pathSplitLoop (nElem - 1).toNat (splitP q)

/-- Inner loop of `find_existing_composite_path`:
`for i in range(i0, i0 + count): candidate = join(path_split(p1, i)[0], tail2)`,
returning the first candidate for which `ex` (the `os.path.exists` oracle)
holds. -/
def compositeLoopI (ex : PyStr → Bool) (p1 tail2 : PyStr) : Nat → Nat → Option PyStr
  | _, 0 => none
  | i, count + 1 =>
    let candidate := joinP (pathSplit p1 (i : Int)).1 tail2
    if ex candidate then some candidate
    else compositeLoopI ex p1 tail2 (i + 1) count

/-- Outer loop of `find_existing_composite_path`:
`for j in range(j0, j0 + count)`, taking the tail of `p2` of length `j`
and running the inner loop over `path_1` for each `j`. -/
def compositeLoopJ (ex : PyStr → Bool) (p1 p2 : PyStr) : Nat → Nat → Option PyStr
  | _, 0 => none
  | j, count + 1 =>
    let tail2 := (pathSplit p2 (j : Int)).2
    match compositeLoopI ex p1 tail2 1 (numPathElems p1) with
    | some c => some c
    | none => compositeLoopJ ex p1 p2 (j + 1) count

/-- `find_existing_composite_path`, with the filesystem abstracted as the
existence oracle `ex` standing for `os.path.exists`.  Returns the string
`"None"` when no candidate exists, as the source does. -/
def findExistingCompositePath (ex : PyStr → Bool) (path1 path2 : PyStr) : PyStr :=
  let p1 := osCleanPath path1
  let p2 := osCleanPath path2
  match compositeLoopJ ex p1 p2 1 (numPathElems p2) with
  | some c => c
  | none => pys "None"

/-- The candidate list that `find_existing_composite_path` walks, in the
order the nested loops visit it: `j` (the length of the tail kept from
`path_2`) ascending in the outer position, `i` (the number of trailing
segments removed from `path_1`, so the head length is descending)
ascending in the inner position.  Both arguments are expected already
cleaned, as they are at the loops in the source. -/
def compositeCandidates (p1 p2 : PyStr) : List PyStr :=
  (List.range' 1 (numPathElems p2)).flatMap (fun (j : Nat) =>
    (List.range' 1 (numPathElems p1)).map (fun (i : Nat) =>
      joinP (pathSplit p1 (i : Int)).1 (pathSplit p2 (j : Int)).2))

/-- Modelled from the spec claim C1 wording: the same search but with the
inner loop over `pathA` head lengths ascending (head length `hl` running
`0, 1, ...`, i.e. trailing removals `n - hl` descending), for comparison
with the order the code actually uses. -/
def claimOrderCandidates (p1 p2 : PyStr) : List PyStr :=
  (List.range' 1 (numPathElems p2)).flatMap (fun (j : Nat) =>
    (List.range' 0 (numPathElems p1)).map (fun (hl : Nat) =>
      joinP (pathSplit p1 ((numPathElems p1 : Int) - (hl : Int))).1
        (pathSplit p2 (j : Int)).2))

/-- Modelled from the spec claim C1 wording: first existing candidate in
the claimed (head lengths ascending) order, `"None"` when there is none. -/
def claimOrderComposite (ex : PyStr → Bool) (path1 path2 : PyStr) : PyStr :=
  let p1 := osCleanPath path1
  let p2 := osCleanPath path2
  match (claimOrderCandidates p1 p2).find? ex with
  | some c => c
  | none => pys "None"

/-! ## Clean absolute paths

A cleaned absolute path is one separator followed by separator-joined
components that are nonempty, separator-free and neither `.` nor `..`.
The lemmas below characterise the path helpers on this shape, and
`osCleanPath_abs` shows that every path whose cleaned form starts with
the separator has this shape. -/

def goodComp (c : PyStr) : Prop :=
  c ≠ [] ∧ (∀ x ∈ c, x ≠ sep) ∧ c ≠ [dot] ∧ c ≠ [dot, dot]

def goodComps (l : List PyStr) : Prop := ∀ c ∈ l, goodComp c

/-- The rendered form of an absolute path with the given components. -/
def absRender (comps : List PyStr) : PyStr := sep :: interSep comps

lemma goodComps_sub {l m : List PyStr} (h : goodComps m) (hsub : l ⊆ m) :
    goodComps l := fun c hc => h c (hsub hc)

lemma interSep_cons (c : PyStr) (cs : List PyStr) (h : cs ≠ []) :
    interSep (c :: cs) = c ++ sep :: interSep cs := by
  cases cs with
  | nil => exact absurd rfl h
  | cons d ds => rfl

lemma interSep_concat (cs : List PyStr) (c : PyStr) (h : cs ≠ []) :
    interSep (cs ++ [c]) = interSep cs ++ sep :: c := by
  induction cs with
  | nil => exact absurd rfl h
  | cons d ds ih =>
    cases ds with
    | nil => rfl
    | cons e es =>
      rw [List.cons_append, interSep_cons d (e :: es ++ [c]) (by simp),
        ih (by simp), interSep_cons d (e :: es) (by simp)]
      simp

lemma interSep_append (hs ts : List PyStr) (h1 : hs ≠ []) (h2 : ts ≠ []) :
    interSep (hs ++ ts) = interSep hs ++ sep :: interSep ts := by
  induction hs with
  | nil => exact absurd rfl h1
  | cons d ds ih =>
    cases ds with
    | nil =>
      rw [List.cons_append, List.nil_append, interSep_cons d ts h2]
      rfl
    | cons e es =>
      rw [List.cons_append, interSep_cons d (e :: es ++ ts) (by simp),
        ih (by simp), interSep_cons d (e :: es) (by simp)]
      simp

lemma interSep_cons_exists (c : PyStr) (cs : List PyStr) :
    ∃ r, interSep (c :: cs) = c ++ r := by
  cases cs with
  | nil => exact ⟨[], by simp [interSep]⟩
  | cons d ds => exact ⟨sep :: interSep (d :: ds), rfl⟩

lemma interSep_concat_char (cs : List PyStr) (hne : cs ≠ []) (hg : goodComps cs) :
    ∃ r d, interSep cs = r ++ [d] ∧ d ≠ sep := by
  induction cs with
  | nil => exact absurd rfl hne
  | cons c cs ih =>
    cases cs with
    | nil =>
      obtain ⟨hc1, hc2, -, -⟩ := hg c (by simp)
      refine ⟨c.dropLast, c.getLast hc1, ?_, hc2 _ (List.getLast_mem hc1)⟩
      simp [interSep, List.dropLast_append_getLast hc1]
    | cons e es =>
      obtain ⟨r, d, hr, hd⟩ := ih (by simp) (goodComps_sub hg (by intro x hx; simp [hx]))
      refine ⟨c ++ sep :: r, d, ?_, hd⟩
      rw [interSep_cons c (e :: es) (by simp), hr]
      simp

lemma takeWhile_all_append (f : Char → Bool) (u : PyStr) (y : Char) (v : PyStr)
    (hu : ∀ x ∈ u, f x = true) (hy : f y = false) :
    (u ++ y :: v).takeWhile f = u ∧ (u ++ y :: v).dropWhile f = y :: v := by
  induction u with
  | nil => simp [List.takeWhile_cons, List.dropWhile_cons, hy]
  | cons a u ih =>
    have ha := hu a (by simp)
    have hrest := ih (fun x hx => hu x (by simp [hx]))
    simp [List.takeWhile_cons, List.dropWhile_cons, ha, hrest.1, hrest.2]

lemma absRender_concat_of_ne (cs : List PyStr) (c : PyStr) (h : cs ≠ []) :
    absRender (cs ++ [c]) = absRender cs ++ sep :: c := by
  rw [absRender, interSep_concat cs c h]
  rfl

lemma splitP_absRender (cs : List PyStr) (c : PyStr) (hg : goodComps (cs ++ [c])) :
    splitP (absRender (cs ++ [c])) = (absRender cs, c) := by
  obtain ⟨hc1, hc2, -, -⟩ := hg c (by simp)
  have hcrev : ∀ x ∈ c.reverse, (fun z => decide (z ≠ sep)) x = true := by
    intro x hx
    simpa using hc2 x (List.mem_reverse.mp hx)
  have hysep : (fun z => decide (z ≠ sep)) sep = false := by simp
  cases cs with
  | nil =>
    have hform : absRender ([] ++ [c]) = sep :: c := by
      simp [absRender, interSep]
    rw [hform]
    have hrev : (sep :: c).reverse = c.reverse ++ sep :: ([] : PyStr) := by simp
    obtain ⟨htw, hdw⟩ := takeWhile_all_append _ c.reverse sep [] hcrev hysep
    simp only [splitP, hrev, htw, hdw]
    rw [if_neg (by decide)]
    simp [absRender, interSep]
  | cons e es =>
    have hne : (e :: es : List PyStr) ≠ [] := by simp
    have hform : absRender ((e :: es) ++ [c]) = absRender (e :: es) ++ sep :: c :=
      absRender_concat_of_ne _ c hne
    rw [hform]
    have hrev : (absRender (e :: es) ++ sep :: c).reverse
        = c.reverse ++ sep :: (absRender (e :: es)).reverse := by simp
    obtain ⟨htw, hdw⟩ := takeWhile_all_append _ c.reverse sep ((absRender (e :: es)).reverse)
      hcrev hysep
    obtain ⟨r, d, hrd, hd⟩ := interSep_concat_char (e :: es) hne
      (goodComps_sub hg (by intro x hx; exact List.mem_append_left _ hx))
    have habs : absRender (e :: es) = sep :: (r ++ [d]) := by rw [absRender, hrd]
    have hrevform : (sep :: (absRender (e :: es)).reverse).reverse
        = absRender (e :: es) ++ [sep] := by simp
    have hany : ((sep :: (absRender (e :: es)).reverse).reverse).any
        (fun z => decide (z ≠ sep)) = true := by
      rw [hrevform, habs]
      simp only [List.any_eq_true]
      exact ⟨d, by simp, by simpa using hd⟩
    have hstrip : rstripSep (absRender (e :: es) ++ [sep]) = absRender (e :: es) := by
      rw [rstripSep]
      have h1 : (absRender (e :: es) ++ [sep]).reverse = sep :: (absRender (e :: es)).reverse := by
        simp
      have h2 : (absRender (e :: es)).reverse = d :: (r.reverse ++ [sep]) := by
        rw [habs]
        simp
      rw [h1, List.dropWhile_cons, if_pos (by simp), h2, List.dropWhile_cons,
        if_neg (by simpa using hd), ← h2]
      simp
    simp only [splitP, hrev, htw, hdw]
    rw [if_pos ⟨by simp, hany⟩, hrevform, hstrip]
    simp

lemma dirnameP_absRender (cs : List PyStr) (c : PyStr) (hg : goodComps (cs ++ [c])) :
    dirnameP (absRender (cs ++ [c])) = absRender cs := by
  rw [dirnameP, splitP_absRender cs c hg]

lemma length_absRender (cs : List PyStr) (hg : goodComps cs) :
    cs.length ≤ (absRender cs).length := by
  induction cs with
  | nil => simp [absRender, interSep]
  | cons c cs ih =>
    have hc : goodComp c := hg c (by simp)
    have hclen : 1 ≤ c.length := List.length_pos.mpr hc.1
    cases cs with
    | nil =>
      simp only [absRender, interSep, List.length_cons, List.length_nil]
      omega
    | cons e es =>
      have hrest := ih (goodComps_sub hg (by intro x hx; exact List.mem_cons_of_mem _ hx))
      rw [absRender, interSep_cons c (e :: es) (by simp)]
      rw [absRender] at hrest
      simp only [List.length_cons, List.length_append] at hrest ⊢
      omega

lemma absRender_concat_length (cs : List PyStr) (c : PyStr) (hc : c ≠ []) :
    (absRender cs).length < (absRender (cs ++ [c])).length := by
  have hclen : 1 ≤ c.length := List.length_pos.mpr hc
  cases cs with
  | nil =>
    simp only [List.nil_append, absRender, interSep, List.length_cons, List.length_nil]
    omega
  | cons e es =>
    rw [absRender_concat_of_ne (e :: es) c (by simp)]
    simp only [List.length_append, List.length_cons]
    omega

lemma absRender_concat_ne (cs : List PyStr) (c : PyStr) (hc : c ≠ []) :
    absRender (cs ++ [c]) ≠ absRender cs := by
  intro h
  have := absRender_concat_length cs c hc
  rw [h] at this
  omega

lemma numElemsFuel_absRender :
    ∀ (fuel : Nat) (cs : List PyStr), goodComps cs → cs.length < fuel →
      numElemsFuel fuel (absRender cs) = cs.length := by
  intro fuel
  induction fuel with
  | zero => intro cs _ h; omega
  | succ f ih =>
    intro cs hg hlt
    rcases cs.eq_nil_or_concat with h | ⟨L, b, h⟩
    · subst h
      have hfix : absRender [] = dirnameP (absRender []) := by decide
      simp [numElemsFuel, ← hfix]
    · rw [List.concat_eq_append] at h
      subst h
      have hb : goodComp b := hg b (by simp)
      have hd : dirnameP (absRender (L ++ [b])) = absRender L := dirnameP_absRender L b hg
      have hne : absRender (L ++ [b]) ≠ dirnameP (absRender (L ++ [b])) := by
        rw [hd]
        exact absRender_concat_ne L b hb.1
      rw [numElemsFuel, if_neg hne, hd,
        ih L (goodComps_sub hg (by intro x hx; exact List.mem_append_left _ hx))
          (by simp at hlt; omega)]
      simp only [List.length_append, List.length_cons, List.length_nil]
      omega

lemma pySplitChar_sepfree (c : Char) (l : PyStr) (h : ∀ x ∈ l, x ≠ c) :
    pySplitChar c l = [l] := by
  induction l with
  | nil => rfl
  | cons x xs ih =>
    have hx : x ≠ c := h x (by simp)
    rw [pySplitChar, if_neg hx, ih (fun z hz => h z (by simp [hz]))]

lemma pySplitChar_append_sep (c : Char) (u v : PyStr) (hu : ∀ x ∈ u, x ≠ c) :
    pySplitChar c (u ++ c :: v) = u :: pySplitChar c v := by
  induction u with
  | nil => simp [pySplitChar]
  | cons x u ih =>
    have hx : x ≠ c := hu x (by simp)
    rw [List.cons_append, pySplitChar, if_neg hx,
      ih (fun z hz => hu z (by simp [hz]))]

lemma interSep_pySplitChar (cs : List PyStr) (hne : cs ≠ [])
    (hsf : ∀ c ∈ cs, ∀ x ∈ c, x ≠ sep) :
    pySplitChar sep (interSep cs) = cs := by
  induction cs with
  | nil => exact absurd rfl hne
  | cons c cs ih =>
    cases cs with
    | nil => exact pySplitChar_sepfree sep c (hsf c (by simp))
    | cons e es =>
      rw [interSep_cons c (e :: es) (by simp),
        pySplitChar_append_sep sep c (interSep (e :: es)) (hsf c (by simp)),
        ih (by simp) (fun z hz => hsf z (by simp [hz]))]

lemma normStep_good (i : Nat) (acc : List PyStr) (c : PyStr) (hc : goodComp c) :
    normStep i acc c = acc ++ [c] := by
  obtain ⟨h1, -, h3, h4⟩ := hc
  rw [normStep, if_neg (by push_neg; exact ⟨h1, h3⟩), if_pos (Or.inl h4)]

lemma foldl_normStep_good (i : Nat) (cs : List PyStr) (hg : goodComps cs) :
    ∀ acc, cs.foldl (normStep i) acc = acc ++ cs := by
  induction cs with
  | nil => intro acc; simp
  | cons c cs ih =>
    intro acc
    rw [List.foldl_cons, normStep_good i acc c (hg c (by simp)),
      ih (goodComps_sub hg (by intro x hx; exact List.mem_cons_of_mem _ hx)) (acc ++ [c])]
    simp

lemma interSep_head_ne_sep (c : PyStr) (cs : List PyStr) (hc1 : c ≠ [])
    (hc2 : ∀ x ∈ c, x ≠ sep) :
    ∃ x r, interSep (c :: cs) = x :: r ∧ x ≠ sep := by
  obtain ⟨r0, hr0⟩ := interSep_cons_exists c cs
  cases c with
  | nil => exact absurd rfl hc1
  | cons x xs =>
    exact ⟨x, xs ++ r0, by simp [hr0], hc2 x (by simp)⟩

lemma normpathP_absRender (cs : List PyStr) (hg : goodComps cs) :
    normpathP (absRender cs) = absRender cs := by
  cases cs with
  | nil => decide
  | cons c cs =>
    obtain ⟨x, r, hxr, hx⟩ :=
      interSep_head_ne_sep c cs (hg c (by simp)).1 (hg c (by simp)).2.1
    have habs : absRender (c :: cs) = sep :: x :: r := by rw [absRender, hxr]
    have hne : absRender (c :: cs) ≠ [] := by rw [habs]; simp
    have hi : initialSlashesOf (absRender (c :: cs)) = 1 := by
      rw [initialSlashesOf, habs]
      rw [if_pos (by simp)]
      rw [if_neg (by simp [hx])]
    have hsplit : pySplitChar sep (absRender (c :: cs)) = [] :: (c :: cs) := by
      rw [absRender]
      rw [show (sep :: interSep (c :: cs)) = [] ++ sep :: interSep (c :: cs) by simp]
      rw [pySplitChar_append_sep sep [] (interSep (c :: cs)) (by simp),
        interSep_pySplitChar (c :: cs) (by simp) (fun z hz => (hg z hz).2.1)]
    rw [normpathP, if_neg hne, hi, hsplit]
    have h0 : normStep 1 [] [] = [] := by rw [normStep, if_pos (Or.inl rfl)]
    simp only [List.foldl_cons, h0, foldl_normStep_good 1 (c :: cs) hg [], List.nil_append,
      List.replicate_succ, List.replicate_zero, List.cons_append]
    rw [if_neg (by simp)]
    rfl

lemma osCleanPath_absRender (cs : List PyStr) (hg : goodComps cs) :
    osCleanPath (absRender cs) = absRender cs := by
  cases cs with
  | nil => decide
  | cons c cs =>
    obtain ⟨x, r, hxr, hx⟩ :=
      interSep_head_ne_sep c cs (hg c (by simp)).1 (hg c (by simp)).2.1
    have habs : absRender (c :: cs) = sep :: x :: r := by rw [absRender, hxr]
    rw [osCleanPath, normpathP_absRender (c :: cs) hg, habs]
    rw [if_neg (by simp [hx])]

lemma numPathElems_absRender (cs : List PyStr) (hg : goodComps cs) :
    numPathElems (absRender cs) = cs.length := by
  rw [numPathElems]
  simp only [osCleanPath_absRender cs hg]
  exact numElemsFuel_absRender _ cs hg (by have := length_absRender cs hg; omega)

/-- The invariant of `normpathP`'s component fold: accumulated components
are nonempty, separator-free and not `.`, and when leading separators are
present also not `..`. -/
def simpleGood (i : Nat) (c : PyStr) : Prop :=
  c ≠ [] ∧ (∀ x ∈ c, x ≠ sep) ∧ c ≠ [dot] ∧ (i ≠ 0 → c ≠ [dot, dot])

lemma simpleGood_goodComp {i : Nat} {c : PyStr} (h : simpleGood i c) (hi : i ≠ 0) :
    goodComp c := ⟨h.1, h.2.1, h.2.2.1, h.2.2.2 hi⟩

lemma foldl_normStep_invariant (i : Nat) (pieces : List PyStr)
    (hp : ∀ c ∈ pieces, ∀ x ∈ c, x ≠ sep) :
    ∀ acc, (∀ c ∈ acc, simpleGood i c) →
      ∀ c ∈ pieces.foldl (normStep i) acc, simpleGood i c := by
  induction pieces with
  | nil => intro acc hacc; simpa using hacc
  | cons p ps ih =>
    intro acc hacc
    rw [List.foldl_cons]
    refine ih (fun c hc x hx => hp c (List.mem_cons_of_mem _ hc) x hx) _ ?_
    intro c hc
    rw [normStep] at hc
    by_cases h1 : p = [] ∨ p = [dot]
    · rw [if_pos h1] at hc
      exact hacc c hc
    · rw [if_neg h1] at hc
      by_cases h2 : p ≠ [dot, dot] ∨ (i = 0 ∧ acc = [])
          ∨ (acc ≠ [] ∧ acc.getLast? = some [dot, dot])
      · rw [if_pos h2] at hc
        rcases List.mem_append.mp hc with h | h
        · exact hacc c h
        · have hcp : c = p := by simpa using h
          subst hcp
          push_neg at h1
          refine ⟨h1.1, hp c (by simp), h1.2, ?_⟩
          intro hi0 hpdd
          subst hpdd
          rcases h2 with h | h | h
          · exact h rfl
          · exact hi0 h.1
          · exact (hacc _ (List.mem_of_mem_getLast? h.2)).2.2.2 hi0 rfl
      · rw [if_neg h2] at hc
        by_cases h3 : acc ≠ []
        · rw [if_pos h3] at hc
          exact hacc c (List.dropLast_subset _ hc)
        · rw [if_neg h3] at hc
          exact hacc c hc

lemma pySplitChar_pieces (c : Char) (l : PyStr) :
    ∀ pc ∈ pySplitChar c l, ∀ x ∈ pc, x ≠ c := by
  induction l with
  | nil =>
    intro pc hpc
    rw [pySplitChar] at hpc
    have : pc = [] := by simpa using hpc
    simp [this]
  | cons y ys ih =>
    intro pc hpc x hx
    rw [pySplitChar] at hpc
    by_cases hy : y = c
    · rw [if_pos hy] at hpc
      rcases List.mem_cons.mp hpc with h | h
      · subst h; cases hx
      · exact ih pc h x hx
    · rw [if_neg hy] at hpc
      cases hsp : pySplitChar c ys with
      | nil =>
        rw [hsp] at hpc
        have : pc = [y] := by simpa using hpc
        subst this
        have : x = y := by simpa using hx
        subst this
        exact hy
      | cons q qs =>
        rw [hsp] at hpc
        rcases List.mem_cons.mp hpc with h | h
        · subst h
          rcases List.mem_cons.mp hx with h | h
          · subst h; exact hy
          · exact ih q (by rw [hsp]; simp) x h
        · exact ih pc (by rw [hsp]; exact List.mem_cons_of_mem _ h) x hx

lemma initialSlashesOf_cases (p : PyStr) :
    initialSlashesOf p = 0 ∨ initialSlashesOf p = 1 ∨ initialSlashesOf p = 2 := by
  rw [initialSlashesOf]
  by_cases h1 : p.take 1 = [sep]
  · rw [if_pos h1]
    by_cases h2 : p.take 2 = [sep, sep] ∧ p.take 3 ≠ [sep, sep, sep]
    · rw [if_pos h2]; simp
    · rw [if_neg h2]; simp
  · rw [if_neg h1]; simp

lemma take_two_cons (x : Char) (r : PyStr) : (x :: r).take 2 = x :: r.take 1 := rfl

/-- Characterisation of cleaned absolute paths: whenever `os_clean_path`
of a path starts with the separator, the result is a separator followed
by separator-joined good components. -/
lemma osCleanPath_abs (p : PyStr) (h : (osCleanPath p).take 1 = [sep]) :
    ∃ cs, goodComps cs ∧ osCleanPath p = absRender cs := by
  by_cases hp : p = []
  · subst hp
    exact absurd h (by decide)
  have hinv : ∀ c ∈ (pySplitChar sep p).foldl (normStep (initialSlashesOf p)) [],
      simpleGood (initialSlashesOf p) c :=
    foldl_normStep_invariant _ _ (pySplitChar_pieces sep p) [] (by simp)
  have hq : normpathP p
      = (if List.replicate (initialSlashesOf p) sep
            ++ interSep ((pySplitChar sep p).foldl (normStep (initialSlashesOf p)) []) = []
         then [dot]
         else List.replicate (initialSlashesOf p) sep
            ++ interSep ((pySplitChar sep p).foldl (normStep (initialSlashesOf p)) [])) := by
    rw [normpathP, if_neg hp]
  rcases initialSlashesOf_cases p with hi | hi | hi
  all_goals rw [hi] at hq hinv
  · -- no leading separator: the cleaned path cannot start with one
    exfalso
    cases hnc : (pySplitChar sep p).foldl (normStep 0) [] with
    | nil =>
      rw [hnc] at hq
      simp only [List.replicate_zero, List.nil_append, interSep, if_pos] at hq
      rw [osCleanPath, hq] at h
      exact absurd h (by decide)
    | cons c nc =>
      have hc := hinv c (by rw [hnc]; simp)
      obtain ⟨x, r, hxr, hx⟩ := interSep_head_ne_sep c nc hc.1 hc.2.1
      rw [hnc, hxr] at hq
      simp only [List.replicate_zero, List.nil_append] at hq
      rw [if_neg (by simp)] at hq
      rw [osCleanPath, hq, take_two_cons, if_neg (by simp [hx])] at h
      have : x = sep := by simpa using h
      exact hx this
  · -- one leading separator
    cases hnc : (pySplitChar sep p).foldl (normStep 1) [] with
    | nil =>
      refine ⟨[], (by intro c hc; cases hc), ?_⟩
      rw [hnc] at hq
      simp only [List.replicate_succ, List.replicate_zero, interSep, List.cons_append,
        List.nil_append, List.append_nil] at hq
      rw [if_neg (by simp)] at hq
      rw [osCleanPath, hq]
      decide
    | cons c nc =>
      have hgood : goodComps (c :: nc) := by
        intro z hz
        exact simpleGood_goodComp (hinv z (by rw [hnc]; exact hz)) (by omega)
      refine ⟨c :: nc, hgood, ?_⟩
      obtain ⟨x, r, hxr, hx⟩ :=
        interSep_head_ne_sep c nc (hgood c (by simp)).1 (hgood c (by simp)).2.1
      rw [hnc] at hq
      simp only [List.replicate_succ, List.replicate_zero, List.cons_append,
        List.nil_append] at hq
      rw [if_neg (by simp)] at hq
      rw [osCleanPath, hq, hxr, take_two_cons, if_neg (by simp [hx])]
      rw [absRender, hxr]
  · -- two leading separators: one is stripped by `os_clean_path`
    have hgood : goodComps ((pySplitChar sep p).foldl (normStep 2) []) := by
      intro z hz
      exact simpleGood_goodComp (hinv z hz) (by omega)
    refine ⟨(pySplitChar sep p).foldl (normStep 2) [], hgood, ?_⟩
    have hnorm : normpathP p
        = sep :: sep :: interSep ((pySplitChar sep p).foldl (normStep 2) []) := by
      rw [hq]
      simp only [List.replicate_succ, List.replicate_zero, List.cons_append, List.nil_append]
      rw [if_neg (by simp)]
    rw [osCleanPath, hnorm, if_pos (by rfl)]
    rw [absRender]
    simp

lemma joinP_comp_inter (d : PyStr) (ts : List PyStr) (hd1 : d ≠ [])
    (hd2 : ∀ x ∈ d, x ≠ sep) (hts : ts ≠ []) (hg : goodComps ts) :
    joinP d (interSep ts) = interSep (d :: ts) := by
  cases ts with
  | nil => exact absurd rfl hts
  | cons t ts =>
    obtain ⟨x, r, hxr, hx⟩ :=
      interSep_head_ne_sep t ts (hg t (by simp)).1 (hg t (by simp)).2.1
    rw [joinP, if_neg (by rw [hxr]; simp [hx]), if_neg, interSep_cons d (t :: ts) (by simp)]
    push_neg
    refine ⟨hd1, ?_⟩
    rw [List.getLast?_eq_getLast d hd1]
    intro hcontra
    exact hd2 _ (List.getLast_mem hd1) (by simpa using hcontra)

lemma joinP_absRender_inter (hs ts : List PyStr) (hg1 : goodComps hs)
    (hg2 : goodComps ts) (hts : ts ≠ []) :
    joinP (absRender hs) (interSep ts) = absRender (hs ++ ts) := by
  cases ts with
  | nil => exact absurd rfl hts
  | cons t ts =>
    obtain ⟨x, r, hxr, hx⟩ :=
      interSep_head_ne_sep t ts (hg2 t (by simp)).1 (hg2 t (by simp)).2.1
    cases hs with
    | nil =>
      rw [joinP, if_neg (by rw [hxr]; simp [hx]), if_pos]
      · rw [absRender, absRender, interSep]
        rfl
      · right
        rw [absRender, interSep]
        rfl
    | cons e es =>
      obtain ⟨r0, d0, hr0, hd0⟩ := interSep_concat_char (e :: es) (by simp) hg1
      rw [joinP, if_neg (by rw [hxr]; simp [hx]), if_neg]
      · rw [absRender, absRender, interSep_append (e :: es) (t :: ts) (by simp) (by simp)]
        simp
      · push_neg
        refine ⟨by rw [absRender]; simp, ?_⟩
        rw [absRender, hr0, show (sep :: (r0 ++ [d0])) = (sep :: r0) ++ [d0] by simp,
          List.getLast?_concat]
        intro hcontra
        exact hd0 (by simpa using hcontra)

lemma pathSplitLoop_absRender :
    ∀ (k : Nat) (cs ts : List PyStr), goodComps cs → goodComps ts → ts ≠ [] →
      k ≤ cs.length →
      pathSplitLoop k (absRender cs, interSep ts)
        = (absRender (cs.take (cs.length - k)), interSep (cs.drop (cs.length - k) ++ ts)) := by
  intro k
  induction k with
  | zero =>
    intro cs ts _ _ _ _
    simp [pathSplitLoop]
  | succ k ih =>
    intro cs ts hg1 hg2 hts hk
    rcases cs.eq_nil_or_concat with h | ⟨L, b, h⟩
    · subst h; simp at hk
    · rw [List.concat_eq_append] at h
      subst h
      have hb : goodComp b := hg1 b (by simp)
      have hgL : goodComps L := goodComps_sub hg1 (by intro z hz; exact List.mem_append_left _ hz)
      rw [pathSplitLoop]
      simp only [splitP_absRender L b hg1]
      rw [joinP_comp_inter b ts hb.1 hb.2.1 hts hg2]
      have hbts : goodComps (b :: ts) := by
        intro z hz
        rcases List.mem_cons.mp hz with h | h
        · subst h; exact hb
        · exact hg2 z h
      rw [ih L (b :: ts) hgL hbts (by simp) (by simp at hk; omega)]
      have hlen : (L ++ [b]).length - (k + 1) = L.length - k := by
        simp only [List.length_append, List.length_cons, List.length_nil]
        omega
      have htake : (L ++ [b]).take (L.length - k) = L.take (L.length - k) :=
        List.take_append_of_le_length (by omega)
      have hdrop : (L ++ [b]).drop (L.length - k) = L.drop (L.length - k) ++ [b] :=
        List.drop_append_of_le_length (by omega)
      rw [hlen, htake, hdrop]
      simp

lemma pathSplit_absRender (cs : List PyStr) (n : Nat) (hg : goodComps cs)
    (h1 : 1 ≤ n) (h2 : n ≤ cs.length) :
    pathSplit (absRender cs) (n : Int)
      = (absRender (cs.take (cs.length - n)), interSep (cs.drop (cs.length - n))) := by
  rcases cs.eq_nil_or_concat with h | ⟨L, b, h⟩
  · subst h; simp at h2; omega
  rw [List.concat_eq_append] at h
  subst h
  have hb : goodComp b := hg b (by simp)
  have hgL : goodComps L := goodComps_sub hg (by intro z hz; exact List.mem_append_left _ hz)
  rw [pathSplit]
  simp only [osCleanPath_absRender _ hg]
  rw [if_neg (by omega)]
  have hnat : ((n : Int) - 1).toNat = n - 1 := by omega
  rw [hnat]
  have hfirst : splitP (absRender (L ++ [b])) = (absRender L, interSep [b]) := by
    rw [splitP_absRender L b hg]
    rfl
  rw [hfirst, pathSplitLoop_absRender (n - 1) L [b] hgL
    (by intro z hz; rcases List.mem_cons.mp hz with h | h
        · subst h; exact hb
        · cases h)
    (by simp) (by simp at h2; omega)]
  have hlen1 : L.length - (n - 1) = (L ++ [b]).length - n := by simp; omega
  have htake : L.take ((L ++ [b]).length - n) = (L ++ [b]).take ((L ++ [b]).length - n) :=
    (List.take_append_of_le_length (by simp; omega)).symm
  have hdrop : L.drop ((L ++ [b]).length - n) ++ [b] = (L ++ [b]).drop ((L ++ [b]).length - n) :=
    (List.drop_append_of_le_length (by simp; omega)).symm
  rw [hlen1, htake, hdrop]

lemma rstripSep_length_le (s : PyStr) : (rstripSep s).length ≤ s.length := by
  rw [rstripSep]
  calc (s.reverse.dropWhile (fun c => decide (c = sep))).reverse.length
      = (s.reverse.dropWhile (fun c => decide (c = sep))).length := List.length_reverse _
    _ ≤ s.reverse.length := (List.dropWhile_sublist _).length_le
    _ = s.length := List.length_reverse s

lemma dirnameP_length_lt (p : PyStr) (h : dirnameP p ≠ p) :
    (dirnameP p).length < p.length := by
  have hparts := List.takeWhile_append_dropWhile (l := p.reverse)
    (p := fun c => decide (c ≠ sep))
  have hlen : (p.reverse.takeWhile (fun c => decide (c ≠ sep))).length
      + (p.reverse.dropWhile (fun c => decide (c ≠ sep))).length = p.length := by
    have hcong := congrArg List.length hparts
    rw [List.length_append, List.length_reverse] at hcong
    exact hcong
  by_cases ht : p.reverse.takeWhile (fun c => decide (c ≠ sep)) = []
  · -- the whole path is its own `head0`; the non-fixpoint case strips a
    -- trailing separator
    have hh0 : (p.reverse.dropWhile (fun c => decide (c ≠ sep))).reverse = p := by
      rw [ht, List.nil_append] at hparts
      rw [hparts]
      exact List.reverse_reverse p
    rw [dirnameP, splitP] at h ⊢
    simp only [hh0] at h ⊢
    by_cases hcond : p ≠ [] ∧ p.any (fun c => decide (c ≠ sep))
    · rw [if_pos hcond] at h ⊢
      have hpne : p ≠ [] := hcond.1
      cases hrev : p.reverse with
      | nil => exact absurd (by simpa using hrev) hpne
      | cons y ys =>
        have hy : y = sep := by
          rw [hrev] at ht
          by_contra hcontra
          rw [List.takeWhile_cons, if_pos (by simpa using hcontra)] at ht
          cases ht
        have : rstripSep p = (ys.dropWhile (fun c => decide (c = sep))).reverse := by
          rw [rstripSep, hrev, List.dropWhile_cons, if_pos (by simp [hy])]
        rw [this]
        calc (ys.dropWhile (fun c => decide (c = sep))).reverse.length
            ≤ ys.length := by
              rw [List.length_reverse]
              exact (List.dropWhile_sublist _).length_le
          _ < p.length := by
              have : p.length = ys.length + 1 := by
                have := congrArg List.length hrev
                simpa using this
              omega
    · rw [if_neg hcond] at h
      exact absurd rfl h
  · -- a nonempty tail was split off, so `head0` is already shorter
    have htpos : 0 < (p.reverse.takeWhile (fun c => decide (c ≠ sep))).length :=
      List.length_pos.mpr ht
    have hh0len : (p.reverse.dropWhile (fun c => decide (c ≠ sep))).length < p.length := by
      omega
    rw [dirnameP, splitP]
    simp only []
    by_cases hcond : (p.reverse.dropWhile (fun c => decide (c ≠ sep))).reverse ≠ []
        ∧ ((p.reverse.dropWhile (fun c => decide (c ≠ sep))).reverse).any
            (fun c => decide (c ≠ sep))
    · rw [if_pos hcond]
      calc (rstripSep (p.reverse.dropWhile (fun c => decide (c ≠ sep))).reverse).length
          ≤ ((p.reverse.dropWhile (fun c => decide (c ≠ sep))).reverse).length :=
            rstripSep_length_le _
        _ < p.length := by rw [List.length_reverse]; exact hh0len
    · rw [if_neg hcond, List.length_reverse]
      exact hh0len

lemma numElemsFuel_stable :
    ∀ (f1 : Nat) (p : PyStr) (f2 : Nat), p.length < f1 → p.length < f2 →
      numElemsFuel f1 p = numElemsFuel f2 p := by
  intro f1
  induction f1 with
  | zero => intro p f2 h _; omega
  | succ a ih =>
    intro p f2 h1 h2
    cases f2 with
    | zero => omega
    | succ b =>
      rw [numElemsFuel, numElemsFuel]
      by_cases hfix : p = dirnameP p
      · rw [if_pos hfix, if_pos hfix]
      · rw [if_neg hfix, if_neg hfix]
        have hlt := dirnameP_length_lt p (fun hh => hfix hh.symm)
        exact congrArg (1 + ·) (ih (dirnameP p) b (by omega) (by omega))

lemma find?_append_none {α : Type} (p : α → Bool) (l₁ l₂ : List α)
    (h : l₁.find? p = none) : (l₁ ++ l₂).find? p = l₂.find? p := by
  induction l₁ with
  | nil => simp
  | cons a l ih =>
    cases hpa : p a with
    | true => rw [List.find?_cons_of_pos l hpa] at h; cases h
    | false =>
      rw [List.find?_cons_of_neg l (by simp [hpa])] at h
      rw [List.cons_append, List.find?_cons_of_neg _ (by simp [hpa])]
      exact ih h

lemma find?_append_some {α : Type} (p : α → Bool) (l₁ l₂ : List α) (a : α)
    (h : l₁.find? p = some a) : (l₁ ++ l₂).find? p = some a := by
  induction l₁ with
  | nil => cases h
  | cons b l ih =>
    cases hpb : p b with
    | true =>
      rw [List.find?_cons_of_pos l hpb] at h
      rw [List.cons_append, List.find?_cons_of_pos _ hpb]
      exact h
    | false =>
      rw [List.find?_cons_of_neg l (by simp [hpb])] at h
      rw [List.cons_append, List.find?_cons_of_neg _ (by simp [hpb])]
      exact ih h

lemma compositeLoopI_eq_find (ex : PyStr → Bool) (p1 tail2 : PyStr) :
    ∀ (count i : Nat),
      compositeLoopI ex p1 tail2 i count
        = ((List.range' i count).map
            (fun (k : Nat) => joinP (pathSplit p1 (k : Int)).1 tail2)).find? ex := by
  intro count
  induction count with
  | zero => intro i; simp [compositeLoopI]
  | succ c ih =>
    intro i
    rw [compositeLoopI, List.range'_succ, List.map_cons]
    by_cases hex : ex (joinP (pathSplit p1 (i : Int)).1 tail2) = true
    · rw [if_pos hex, List.find?_cons_of_pos _ hex]
    · rw [if_neg hex, List.find?_cons_of_neg _ hex, ih (i + 1)]

lemma compositeLoopJ_eq_find (ex : PyStr → Bool) (p1 p2 : PyStr) :
    ∀ (count j : Nat),
      compositeLoopJ ex p1 p2 j count
        = ((List.range' j count).flatMap (fun (jj : Nat) =>
            (List.range' 1 (numPathElems p1)).map
              (fun (i : Nat) =>
                joinP (pathSplit p1 (i : Int)).1 (pathSplit p2 (jj : Int)).2))).find? ex := by
  intro count
  induction count with
  | zero => intro j; simp [compositeLoopJ]
  | succ c ih =>
    intro j
    rw [compositeLoopJ, List.range'_succ, List.flatMap_cons,
      compositeLoopI_eq_find ex p1 ((pathSplit p2 (j : Int)).2) (numPathElems p1) 1]
    cases hfind : ((List.range' 1 (numPathElems p1)).map
        (fun (i : Nat) =>
          joinP (pathSplit p1 (i : Int)).1 (pathSplit p2 (j : Int)).2)).find? ex with
    | none => rw [find?_append_none _ _ _ hfind, ih (j + 1)]
    | some c0 => rw [find?_append_some _ _ _ _ hfind]

/-- C1 (amended): `find_existing_composite_path` returns the first
candidate, in the order outer loop over `pathB` tail lengths ascending
and inner loop over the number of trailing segments removed from `pathA`
ascending (so `pathA` head lengths descending), that exists on disk, and
`"None"` when no combination exists; in particular with
`pathA="/a/b/c"`, `pathB="/x/y/c"` and only `"/a/b/c"` existing it
returns `"/a/b/c"`. -/
theorem c1_find_existing_composite_first_match :
    (∀ (ex : PyStr → Bool) (p1 p2 : PyStr),
      findExistingCompositePath ex p1 p2
        = match (compositeCandidates (osCleanPath p1) (osCleanPath p2)).find? ex with
          | some c => c
          | none => pys "None")
    ∧ findExistingCompositePath (fun c => decide (c = pys "/a/b/c"))
        (pys "/a/b/c") (pys "/x/y/c") = pys "/a/b/c" := by
  constructor
  · intro ex p1 p2
    rw [findExistingCompositePath, compositeCandidates,
      compositeLoopJ_eq_find ex (osCleanPath p1) (osCleanPath p2) (numPathElems (osCleanPath p2)) 1]
  · decide

/-- C1 counterexample: with both `"/a/c"` and `"/c"` existing, the code
returns `"/a/c"` (longest head of `pathA` first), while the claimed
inner-loop order over `pathA` head lengths ascending would return `"/c"`;
the claimed search order is not the one implemented. -/
theorem c1_counterexample :
    findExistingCompositePath (fun c => decide (c = pys "/a/c" ∨ c = pys "/c"))
        (pys "/a/b") (pys "/x/c") = pys "/a/c"
    ∧ claimOrderComposite (fun c => decide (c = pys "/a/c" ∨ c = pys "/c"))
        (pys "/a/b") (pys "/x/c") = pys "/c"
    ∧ pys "/a/c" ≠ pys "/c" := by
  refine ⟨by decide, by decide, by decide⟩

/-- C8 (amended): for every backslash-free path whose cleaned form is
absolute and every `n` with `1 ≤ n ≤ num_path_elems(path)`, `path_split`
returns `(head, tail)` with `join(head, tail)` equal to the cleaned path
and `num_path_elems(head) + n = num_path_elems(path)`. -/
theorem c8_path_split_roundtrip (p : PyStr) (n : Nat)
    (_hbs : ∀ x ∈ p, x ≠ '\\')
    (habs : (osCleanPath p).take 1 = [sep])
    (h1 : 1 ≤ n) (h2 : n ≤ numPathElems p) :
    joinP (pathSplit p (n : Int)).1 (pathSplit p (n : Int)).2 = osCleanPath p
    ∧ numPathElems (pathSplit p (n : Int)).1 + n = numPathElems p := by
  obtain ⟨cs, hg, hcs⟩ := osCleanPath_abs p habs
  have hnum : numPathElems p = cs.length := by
    rw [numPathElems]
    simp only [hcs]
    exact numElemsFuel_absRender _ cs hg (by have := length_absRender cs hg; omega)
  have hsplit : pathSplit p (n : Int)
      = (absRender (cs.take (cs.length - n)), interSep (cs.drop (cs.length - n))) := by
    have hcongr : pathSplit p (n : Int) = pathSplit (absRender cs) (n : Int) := by
      rw [pathSplit, pathSplit, hcs, osCleanPath_absRender cs hg]
    rw [hcongr]
    exact pathSplit_absRender cs n hg h1 (by omega)
  have hgtake : goodComps (cs.take (cs.length - n)) :=
    goodComps_sub hg (List.take_subset _ _)
  have hgdrop : goodComps (cs.drop (cs.length - n)) :=
    goodComps_sub hg (List.drop_subset _ _)
  have hdropne : cs.drop (cs.length - n) ≠ [] := by
    have : (cs.drop (cs.length - n)).length = cs.length - (cs.length - n) :=
      List.length_drop _ _
    intro hcontra
    rw [hcontra] at this
    simp at this
    omega
  constructor
  · rw [hsplit]
    simp only []
    rw [joinP_absRender_inter _ _ hgtake hgdrop hdropne, List.take_append_drop, hcs]
  · rw [hsplit]
    simp only []
    rw [numPathElems_absRender _ hgtake, List.length_take]
    omega

/-- Witness for C8 at `path = "/a/b/c"`, `n = 2`. -/
theorem c8_path_split_roundtrip_witness :
    joinP (pathSplit (pys "/a/b/c") ((2 : Nat) : Int)).1
        (pathSplit (pys "/a/b/c") ((2 : Nat) : Int)).2 = osCleanPath (pys "/a/b/c")
    ∧ numPathElems (pathSplit (pys "/a/b/c") ((2 : Nat) : Int)).1 + 2
        = numPathElems (pys "/a/b/c") :=
  c8_path_split_roundtrip (pys "/a/b/c") 2 (by decide) (by decide) (by decide) (by decide)

/-- C8 counterexample: for the relative path `"a"` and `n = 1`, the head
is the empty string, whose `num_path_elems` is 1 (the empty string cleans
to `"."`), so `CountElements(head) + n = 2 ≠ 1 = CountElements(path)`;
the claimed identity fails for relative paths. -/
theorem c8_counterexample :
    numPathElems (pathSplit (pys "a") ((1 : Nat) : Int)).1 + 1 ≠ numPathElems (pys "a") := by
  decide

/-- C10: `num_path_elems`' loop terminates — `dirname` strictly shortens
any non-fixpoint path, so fuel `length + 1` (indeed any fuel beyond the
length) computes the loop's limit — and the doubly nested search of
`find_existing_composite_path` visits exactly
`num_path_elems(path_2) * num_path_elems(path_1)` candidates. -/
theorem c10_termination :
    (∀ p : PyStr, dirnameP p ≠ p → (dirnameP p).length < p.length)
    ∧ (∀ (p : PyStr) (fuel : Nat), p.length < fuel →
        numElemsFuel fuel p = numPathElemsNoClean p)
    ∧ (∀ p1 p2 : PyStr,
        (compositeCandidates p1 p2).length = numPathElems p2 * numPathElems p1) := by
  refine ⟨dirnameP_length_lt, ?_, ?_⟩
  · intro p fuel h
    rw [numPathElemsNoClean]
    exact numElemsFuel_stable fuel p (p.length + 1) h (by omega)
  · intro p1 p2
    rw [compositeCandidates, List.length_flatMap]
    calc ((List.range' 1 (numPathElems p2)).map
            (List.length ∘ fun (jj : Nat) => (List.range' 1 (numPathElems p1)).map
              (fun (i : Nat) =>
                joinP (pathSplit p1 (i : Int)).1 (pathSplit p2 (jj : Int)).2))).sum
        = ((List.range' 1 (numPathElems p2)).map (fun _ => numPathElems p1)).sum := by
          apply congrArg List.sum
          apply List.map_congr_left
          intro jj _
          simp only [Function.comp]
          rw [List.length_map, List.length_range']
      _ = numPathElems p2 * numPathElems p1 := by
          rw [List.map_const', List.sum_replicate, smul_eq_mul, List.length_range']

/-- Witness for C10 at concrete inputs. -/
theorem c10_termination_witness :
    (dirnameP (pys "/a/b")).length < (pys "/a/b").length
    ∧ numElemsFuel 5 (pys "/a") = numPathElemsNoClean (pys "/a") :=
  ⟨c10_termination.1 (pys "/a/b") (by decide),
   c10_termination.2.1 (pys "/a") 5 (by decide)⟩

/-! ## `parse_digest` (`dicom_and_file_utils.py`)

The file read is abstracted: the parser takes the file's text.  Python's
`str.splitlines` is modelled for the `\n`, `\r\n` and `\r` terminators
(the exotic unicode terminators it also recognises do not occur in digest
files).  The source line `comments.add(mystr[1].strip)` stores an unbound
method object — the defect the spec flags; the corrected behaviour,
storing the trimmed comment text, is what the model records (claim C2 is
stated against the corrected behaviour). -/

/-- Python whitespace characters stripped by `str.strip()` (ASCII set). -/
def pyIsSpace (c : Char) : Bool :=
  c = ' ' || c = '\t' || c = '\n' || c = '\x0b' || c = '\x0c' || c = '\r'

/-- Python `str.strip()`. -/
def pyStrip (s : PyStr) : PyStr :=
  ((s.dropWhile pyIsSpace).reverse.dropWhile pyIsSpace).reverse

/-- Python `str.splitlines()` for LF, CRLF and CR terminators:
accumulates the current line in `acc` (reversed). -/
def splitlinesAux : PyStr → PyStr → List PyStr
  | [], acc => if acc = [] then [] else [acc.reverse]
  | '\r' :: '\n' :: cs, acc => acc.reverse :: splitlinesAux cs []
  | '\n' :: cs, acc => acc.reverse :: splitlinesAux cs []
  | '\r' :: cs, acc => acc.reverse :: splitlinesAux cs []
  | c :: cs, acc => splitlinesAux cs (c :: acc)

def pySplitlines (s : PyStr) : List PyStr := splitlinesAux s []

/-- Python `str.split(c, maxsplit=1)`: at most one split, at the first
occurrence of `c`. -/
def pySplitOnce (c : Char) : PyStr → List PyStr
  | [] => [[]]
  | x :: xs =>
    if x = c then [[], xs]
    else
      match pySplitOnce c xs with
      | [] => [[x]]
      | p :: ps => (x :: p) :: ps

/-- Python `dict` assignment `m[k] = v`: replace the value of an existing
key in place, else append the new pair. -/
def assocSet {β : Type} : List (PyStr × β) → PyStr → β → List (PyStr × β)
  | [], k, v => [(k, v)]
  | (k0, v0) :: rest, k, v =>
    if k0 = k then (k, v) :: rest else (k0, v0) :: assocSet rest k v

/-- Python `set.add`: a no-op when the element is already present. -/
def setAdd (s : List PyStr) (x : PyStr) : List PyStr :=
  if x ∈ s then s else s ++ [x]

/-- One line of `parse_digest`'s scraping loop: split once on `%`, record
the trimmed comment when one is present, split the pre-comment part once
on `=`, and store the trimmed key/value pair when an `=` is present. -/
def parseDigestLine (st : List (PyStr × PyStr) × List PyStr) (line : PyStr) :
    List (PyStr × PyStr) × List PyStr :=
  let mystr := pySplitOnce '%' line
  let comments :=
    if mystr.length > 1 then setAdd st.2 (pyStrip (mystr.getD 1 [])) else st.2
  let mystr2 := pySplitOnce '=' (mystr.getD 0 [])
  if mystr2.length > 1 then
    (assocSet st.1 (pyStrip (mystr2.getD 0 [])) (pyStrip (mystr2.getD 1 [])), comments)
  else (st.1, comments)

/-- `parse_digest` on the digest file's text: split into lines, drop
empty lines and lines that are exactly one space, then scrape each
remaining line.  Returns `(content, comments)`. -/
def parseDigest (text : PyStr) : List (PyStr × PyStr) × List PyStr :=
  let lines := pySplitlines text
  let lines := lines.filter (fun l => decide (l ≠ []))
  let lines := lines.filter (fun l => decide (l ≠ [' ']))
  lines.foldl parseDigestLine ([], [])

lemma lookup_assocSet {β : Type} (m : List (PyStr × β)) (k : PyStr) (v : β) :
    (assocSet m k v).lookup k = some v := by
  induction m with
  | nil => simp [assocSet, List.lookup]
  | cons kv rest ih =>
    obtain ⟨k0, v0⟩ := kv
    rw [assocSet]
    by_cases hk : k0 = k
    · rw [if_pos hk]
      simp [List.lookup]
    · rw [if_neg hk]
      rw [List.lookup]
      have : (k == k0) = false := by
        simp only [beq_eq_false_iff_ne, ne_eq]
        exact fun hkk => hk hkk.symm
      rw [this]
      exact ih

/-- C2: on the four-line digest text `"a = 1 % note\nb=2\n\nbadline\n"`,
`parse_digest` yields content exactly `{"a": "1", "b": "2"}` (the line
without `=` contributes no key) and comments containing the trimmed
`"note"` fragment (under the corrected behaviour for the
method-reference defect); moreover a repeated key's later value
overwrites the earlier one. -/
theorem c2_parse_digest :
    (parseDigest (pys "a = 1 % note\nb=2\n\nbadline\n")).1
        = [(pys "a", pys "1"), (pys "b", pys "2")]
    ∧ (parseDigest (pys "a = 1 % note\nb=2\n\nbadline\n")).2 = [pys "note"]
    ∧ pys "note" ∈ (parseDigest (pys "a = 1 % note\nb=2\n\nbadline\n")).2
    ∧ (∀ (m : List (PyStr × PyStr)) (k v : PyStr), (assocSet m k v).lookup k = some v) := by
  refine ⟨by decide, by decide, by decide, lookup_assocSet⟩

/-! ## `find_mmdi3d_datasets` (`mmdi3d_utils.py`)

The DICOM file reading of lines 43–71 is abstracted: a `DicomFolder`
record carries the folder name, the count of DICOM-parsable files
(`dcm_count`) and the tag values of the representative DICOM the loop
keeps (`SeriesDescription` and `Manufacturer` as `Option` because the
source tests tag presence, `SequenceName` already defaulted to `''` as in
`dcm.get('SequenceName','')`, and `SeriesNumber`).  Lines 72–122 — the
classification and matching logic — are modelled directly. -/

/-- Python `str.lower()` (ASCII case folding). -/
def toLowerP (s : PyStr) : PyStr := s.map Char.toLower

/-- Python substring containment `needle in hay`. -/
def isSubstrP (needle hay : PyStr) : Bool :=
  hay.tails.any (fun t => needle.isPrefixOf t)

/-- Python `str.endswith`. -/
def endsWithP (suffix hay : PyStr) : Bool := suffix.isSuffixOf hay

structure DicomFolder where
  folder : PyStr
  dcmCount : Nat
  seriesDescription : Option PyStr
  manufacturer : Option PyStr
  sequenceName : PyStr
  seriesNumber : Int
deriving DecidableEq

/-- One entry of `data3d['data']`: a Python dict whose keys `mag`,
`mag_series`, `phase`, `phase_series` may each be absent. -/
structure MmdiEntry where
  mag : Option PyStr := none
  magSeries : Option Int := none
  phase : Option PyStr := none
  phaseSeries : Option Int := none
deriving DecidableEq, Inhabited

structure Data3d where
  topDir : PyStr
  manufacturer : PyStr
  data : List MmdiEntry
deriving DecidableEq

/-- The Siemens magnitude branch (source lines 94–104): search the
entries for one whose `phase_series` equals `SeriesNumber + 1` and attach
the magnitude half to it; afterwards append a fresh entry exactly when the
list is empty, or when the loop ran through (`i == len-1`) and the entry
at `i` has no `mag` key. -/
def siemensMagUpdate (dataL : List MmdiEntry) (folder : PyStr) (sn : Int) :
    List MmdiEntry :=
  let idx? := dataL.findIdx? (fun e => decide (e.phaseSeries = some (sn + 1)))
  let d1 :=
    match idx? with
    | some idx =>
      dataL.set idx { dataL.getD idx {} with mag := some folder, magSeries := some sn }
    | none => dataL
  let i := idx?.getD (dataL.length - 1)
  if dataL.length = 0 ∨ (i = d1.length - 1 ∧ (d1.getD i {}).mag = none)
  then d1 ++ [{ mag := some folder, magSeries := some sn }]
  else d1

/-- The Siemens phase branch (source lines 106–116), symmetric to the
magnitude branch with `mag_series == SeriesNumber - 1`. -/
def siemensPhaseUpdate (dataL : List MmdiEntry) (folder : PyStr) (sn : Int) :
    List MmdiEntry :=
  let idx? := dataL.findIdx? (fun e => decide (e.magSeries = some (sn - 1)))
  let d1 :=
    match idx? with
    | some idx =>
      dataL.set idx { dataL.getD idx {} with phase := some folder, phaseSeries := some sn }
    | none => dataL
  let i := idx?.getD (dataL.length - 1)
  if dataL.length = 0 ∨ (i = d1.length - 1 ∧ (d1.getD i {}).phase = none)
  then d1 ++ [{ phase := some folder, phaseSeries := some sn }]
  else d1

/-- One folder of the `find_mmdi3d_datasets` scan (source lines 72–122):
skip invalid folders, classify the manufacturer (the previous value is
retained when no vendor substring matches), apply the vendor validity
predicates, and extend the entry list. -/
def findMmdi3dDatasetsStep (st : Data3d) (f : DicomFolder) : Data3d :=
  if f.dcmCount = 0 ∨ f.seriesDescription = none ∨ f.manufacturer = none
      ∨ isSubstrP (pys "3d-mmdi") f.sequenceName then st
  else
    let desc := f.seriesDescription.getD []
    let manuTag := f.manufacturer.getD []
    let manufacturer :=
      if isSubstrP (pys "siemens") (toLowerP manuTag) then pys "Siemens"
      else if isSubstrP (pys "philips") (toLowerP manuTag) then pys "Philips"
      else if isSubstrP (pys "ge") (toLowerP manuTag) then pys "GE"
      else st.manufacturer
    let geValidLike := decide (manufacturer = pys "GE") && isSubstrP (pys "MRE") desc
      && decide (f.dcmCount > 800)
    let philipsValidLike := decide (manufacturer = pys "Philips") && decide (f.dcmCount > 280)
    let siemensValidLike := decide (manufacturer = pys "Siemens")
      && isSubstrP (pys "928") desc && isSubstrP (pys "3D") desc
    let st := { st with manufacturer := manufacturer }
    if geValidLike || philipsValidLike then
      { st with data := st.data ++ [{ mag := some f.folder, magSeries := some f.seriesNumber }] }
    else if siemensValidLike then
      if endsWithP (pys "mag") (toLowerP desc) then
        { st with data := siemensMagUpdate st.data f.folder f.seriesNumber }
      else if endsWithP (pys "p_p") (toLowerP desc) then
        { st with data := siemensPhaseUpdate st.data f.folder f.seriesNumber }
      else st
    else st

/-- `find_mmdi3d_datasets` over the folders of `top_dir`, in scan order. -/
def findMmdi3dDatasets (topDir : PyStr) (folders : List DicomFolder) : Data3d :=
  folders.foldl findMmdi3dDatasetsStep { topDir := topDir, manufacturer := [], data := [] }

/-- Example folders used in the dataset-matcher claims. -/
def exFolderMag12 : DicomFolder :=
  ⟨pys "f1", 900, some (pys "928 3D mag"), some (pys "Siemens"), [], 12⟩

def exFolderPp13 : DicomFolder :=
  ⟨pys "f2", 900, some (pys "928 3D p_p"), some (pys "Siemens"), [], 13⟩

def exFolderMag20 : DicomFolder :=
  ⟨pys "f3", 900, some (pys "928 3D mag"), some (pys "Siemens"), [], 20⟩

def exFolderGe (count : Nat) : DicomFolder :=
  ⟨pys "g1", count, some (pys "MRE something"), some (pys "GE MEDICAL SYSTEMS"), [], 5⟩

/-- C3 (amended): in the Siemens branch, a half whose complementary half
is present (`phase_series = mag_series + 1`) is attached to the first
such entry and no new entry is created; when no complementary half is
found, a new entry holding only this half is started exactly when the
entry list is empty or the last entry lacks this same half — a folder
whose half matches nothing while the last entry already holds that half
is dropped.  The two-folder example (mag series 12 then p_p series 13)
yields exactly one entry with `mag_series=12, phase_series=13`. -/
theorem c3_siemens_pairing :
    (∀ (dataL : List MmdiEntry) (folder : PyStr) (sn : Int) (idx : Nat),
      dataL.findIdx? (fun e => decide (e.phaseSeries = some (sn + 1))) = some idx →
      siemensMagUpdate dataL folder sn
          = dataL.set idx { dataL.getD idx {} with mag := some folder, magSeries := some sn }
        ∧ (siemensMagUpdate dataL folder sn).length = dataL.length)
    ∧ (∀ (dataL : List MmdiEntry) (folder : PyStr) (sn : Int),
      dataL.findIdx? (fun e => decide (e.phaseSeries = some (sn + 1))) = none →
      (dataL = [] ∨ (dataL.getD (dataL.length - 1) {}).mag = none) →
      siemensMagUpdate dataL folder sn
        = dataL ++ [{ mag := some folder, magSeries := some sn }])
    ∧ (∀ (dataL : List MmdiEntry) (folder : PyStr) (sn : Int),
      dataL.findIdx? (fun e => decide (e.phaseSeries = some (sn + 1))) = none →
      dataL ≠ [] → (dataL.getD (dataL.length - 1) {}).mag ≠ none →
      siemensMagUpdate dataL folder sn = dataL)
    ∧ (findMmdi3dDatasets (pys "top") [exFolderMag12, exFolderPp13]).data
        = [{ mag := some (pys "f1"), magSeries := some 12,
             phase := some (pys "f2"), phaseSeries := some 13 }] := by
  refine ⟨?_, ?_, ?_, by decide⟩
  · intro dataL folder sn idx hidx
    have hlt : idx < dataL.length :=
      (List.findIdx?_eq_some_iff_findIdx_eq.mp hidx).1
    have hget : ((dataL.set idx
        { dataL.getD idx {} with mag := some folder, magSeries := some sn }).getD idx {}).mag
        = some folder := by
      rw [List.getD_eq_getElem?_getD, List.getElem?_set_self (by simpa using hlt)]
      rfl
    have hcond : ¬(dataL.length = 0
        ∨ (idx = (dataL.set idx
            { dataL.getD idx {} with mag := some folder, magSeries := some sn }).length - 1
          ∧ ((dataL.set idx
            { dataL.getD idx {} with mag := some folder, magSeries := some sn }).getD idx
              {}).mag = none)) := by
      push_neg
      refine ⟨by omega, fun _ => ?_⟩
      rw [hget]
      simp
    constructor
    · simp only [siemensMagUpdate, hidx, Option.getD_some]
      rw [if_neg hcond]
    · simp only [siemensMagUpdate, hidx, Option.getD_some]
      rw [if_neg hcond, List.length_set]
  · intro dataL folder sn hidx hcase
    rcases hcase with h | h
    · subst h
      rfl
    · simp only [siemensMagUpdate, hidx, Option.getD_none]
      rw [if_pos (Or.inr ⟨by simp, h⟩)]
  · intro dataL folder sn hidx hne hmag
    simp only [siemensMagUpdate, hidx, Option.getD_none]
    rw [if_neg]
    push_neg
    exact ⟨fun h => hne (List.length_eq_zero.mp h), fun _ => hmag⟩

/-- C3 counterexample: two Siemens magnitude folders with no phase data —
the second one matches nothing, but because the last entry already holds
a `mag` half, no new entry is started and the folder is dropped, leaving
one entry instead of the two the claim requires. -/
theorem c3_counterexample :
    (findMmdi3dDatasets (pys "top") [exFolderMag12, exFolderMag20]).data
        = [{ mag := some (pys "f1"), magSeries := some 12 }]
    ∧ (findMmdi3dDatasets (pys "top") [exFolderMag12, exFolderMag20]).data.length ≠ 2 :=
  ⟨by decide, by decide⟩

/-- Witness for C3's general parts at concrete inputs. -/
theorem c3_siemens_pairing_witness :
    siemensMagUpdate [] (pys "f1") 12 = [{ mag := some (pys "f1"), magSeries := some 12 }]
    ∧ siemensMagUpdate [{ mag := some (pys "f1"), magSeries := some 12 }] (pys "f3") 20
        = [{ mag := some (pys "f1"), magSeries := some 12 }]
    ∧ siemensMagUpdate [{ phase := some (pys "f2"), phaseSeries := some 13 }] (pys "f1") 12
        = [{ mag := some (pys "f1"), magSeries := some 12,
             phase := some (pys "f2"), phaseSeries := some 13 }] := by
  refine ⟨?_, ?_, ?_⟩
  · have h := c3_siemens_pairing.2.1 [] (pys "f1") 12 (by decide) (Or.inl rfl)
    exact h.trans (by decide)
  · exact c3_siemens_pairing.2.2.1 [{ mag := some (pys "f1"), magSeries := some 12 }]
      (pys "f3") 20 (by decide) (by decide) (by decide)
  · have h := (c3_siemens_pairing.1 [{ phase := some (pys "f2"), phaseSeries := some 13 }]
      (pys "f1") 12 0 (by decide)).1
    exact h.trans (by decide)

/-- C4: a folder classified as GE whose SeriesDescription contains
`"MRE"` (and which is not skipped as already-processed data) produces a
dataset entry `{mag, mag_series}` if and only if its valid-DICOM count
exceeds 800; with 850 files the example folder yields one entry with
`mag_series=5`, with 700 files it yields none. -/
theorem c4_ge_validity :
    (∀ (st : Data3d) (f : DicomFolder) (desc : PyStr),
      f.seriesDescription = some desc →
      isSubstrP (pys "MRE") desc = true →
      isSubstrP (pys "3d-mmdi") f.sequenceName = false →
      isSubstrP (pys "siemens") (toLowerP (f.manufacturer.getD [])) = false →
      isSubstrP (pys "philips") (toLowerP (f.manufacturer.getD [])) = false →
      isSubstrP (pys "ge") (toLowerP (f.manufacturer.getD [])) = true →
      ((findMmdi3dDatasetsStep st f).data
          = st.data ++ [{ mag := some f.folder, magSeries := some f.seriesNumber }]
        ↔ f.dcmCount > 800))
    ∧ (findMmdi3dDatasets (pys "top") [exFolderGe 850]).data
        = [{ mag := some (pys "g1"), magSeries := some 5 }]
    ∧ (findMmdi3dDatasets (pys "top") [exFolderGe 700]).data = [] := by
  refine ⟨?_, by decide, by decide⟩
  intro st f desc hdesc hmre hseq hsie hphi hge
  have hmanu : f.manufacturer ≠ none := by
    intro h
    rw [h] at hge
    exact absurd hge (by decide)
  by_cases hcnt : f.dcmCount = 0
  · rw [findMmdi3dDatasetsStep, if_pos (Or.inl hcnt)]
    constructor
    · intro h
      have := congrArg List.length h
      simp at this
    · intro h
      omega
  · rw [findMmdi3dDatasetsStep,
      if_neg (by push_neg; exact ⟨hcnt, by simp [hdesc], hmanu, by simp [hseq]⟩)]
    have hGP : pys "GE" ≠ pys "Philips" := by decide
    have hGS : pys "GE" ≠ pys "Siemens" := by decide
    simp only [hdesc, Option.getD_some]
    have hclass : (if isSubstrP (pys "siemens") (toLowerP (f.manufacturer.getD [])) = true
        then pys "Siemens"
        else if isSubstrP (pys "philips") (toLowerP (f.manufacturer.getD [])) = true
        then pys "Philips"
        else if isSubstrP (pys "ge") (toLowerP (f.manufacturer.getD [])) = true
        then pys "GE"
        else st.manufacturer) = pys "GE" := by
      rw [if_neg (by simp [hsie]), if_neg (by simp [hphi]), if_pos (by simp [hge])]
    rw [hclass]
    by_cases h800 : f.dcmCount > 800
    · rw [if_pos (by simp [hmre, h800])]
      simp [h800]
    · have hcond1 : ¬((decide ((pys "GE" : PyStr) = pys "GE") && isSubstrP (pys "MRE") desc
          && decide (f.dcmCount > 800)
          || decide ((pys "GE" : PyStr) = pys "Philips") && decide (f.dcmCount > 280))
            = true) := by
        simp [h800, hGP]
      have hcond2 : ¬((decide ((pys "GE" : PyStr) = pys "Siemens")
          && isSubstrP (pys "928") desc && isSubstrP (pys "3D") desc) = true) := by
        simp [hGS]
      rw [if_neg hcond1, if_neg hcond2]
      constructor
      · intro h
        have := congrArg List.length h
        simp at this
      · intro h
        exact absurd h h800

/-- Witness for C4's general part at a concrete folder and state. -/
theorem c4_ge_validity_witness :
    (findMmdi3dDatasetsStep { topDir := pys "top", manufacturer := [], data := [] }
        (exFolderGe 850)).data
      = [] ++ [{ mag := some (pys "g1"), magSeries := some 5 }] :=
  (c4_ge_validity.1 { topDir := pys "top", manufacturer := [], data := [] }
    (exFolderGe 850) (pys "MRE something") rfl (by decide) (by decide) (by decide)
    (by decide) (by decide)).mpr (by decide)

/-! ## `apply_rois_to_mmdi3d_contrasts` (`mmdi3d_utils.py`)

Pixel data is modelled in exact rational arithmetic: `read_images` of a
path is abstracted as an image lookup `img : PyStr → List ℚ` giving the
row-major pixel list of the DICOM at that path, and a stack of slices is
the concatenation of its images.  Numpy boolean-mask selection over
equal-shape stacks is elementwise, so it is modelled as zip-and-filter;
the computed statistics depend only on the multiset of selected values.
The `''` sentinel fields of the statistics record are modelled as
`none`.  `np.std` is the square root of the population variance and is
irrational in general, so the model stores the exact variance in that
slot — presence and absence mirror the source exactly.  The `range`
field stores the `(P25, P75)` pair the source formats as a string.

In the damping-ratio branch the source computes
`0.5*np.divide(loss_stack, storage_stack, where=(storage_stack!=0))`:
numpy leaves output entries where the `where` mask is false
uninitialized, so the model takes the leftover memory content as an
explicit parameter `uninit` — `nan` when the garbage is a float NaN
(then the `isnan` filter drops the pixel) and `val q` for any other
leftover value (then the pixel is kept with that value). -/

structure SliceRec where
  roiFilePath : PyStr
  storagePath : PyStr
  lossPath : PyStr
  attenuationPath : PyStr
deriving DecidableEq

/-- The contrast types of `CONTRASTS`; `damping` models the source's
damping-ratio contrast. -/
inductive ContrastName where
  | storage
  | loss
  | attenuation
  | damping
  | volumetricStrain
deriving DecidableEq

/-- `slice_data[slice_number][contrast+'_path']` for the direct
contrasts. -/
def contrastPathOf : ContrastName → SliceRec → PyStr
  | .storage, s => s.storagePath
  | .loss, s => s.lossPath
  | .attenuation, s => s.attenuationPath
  | _, _ => []

/-- Leftover content of an uninitialized numpy output entry. -/
inductive UninitVal where
  | nan : UninitVal
  | val : ℚ → UninitVal
deriving DecidableEq

def listSumQ (l : List ℚ) : ℚ := l.foldl (· + ·) 0

/-- `np.mean`. -/
def meanQ (l : List ℚ) : ℚ := listSumQ l / l.length

/-- The population variance; `np.std` is its square root. -/
def varQ (l : List ℚ) : ℚ := meanQ (l.map (fun x => (x - meanQ l) ^ 2))

def insertSorted (x : ℚ) : List ℚ → List ℚ
  | [] => [x]
  | y :: ys => if x ≤ y then x :: y :: ys else y :: insertSorted x ys

def sortQ (l : List ℚ) : List ℚ := l.foldr insertSorted []

/-- `np.percentile` with its default linear interpolation (`np.median`
is the 50th percentile). -/
def percentileQ (l : List ℚ) (q : ℚ) : ℚ :=
  let s := sortQ l
  let h : ℚ := ((s.length : ℚ) - 1) * q / 100
  let i : Nat := (⌊h⌋).toNat
  let lo := s.getD i 0
  let hi := s.getD (i + 1) lo
  lo + (h - (⌊h⌋ : ℚ)) * (hi - lo)

/-- `np.round` to integer: nearest, ties to even. -/
def roundHalfEvenZ (q : ℚ) : ℤ :=
  if q - ⌊q⌋ < 1/2 then ⌊q⌋
  else if q - ⌊q⌋ > 1/2 then ⌊q⌋ + 1
  else if ⌊q⌋ % 2 = 0 then ⌊q⌋ else ⌊q⌋ + 1

/-- `np.round(x, 2)`. -/
def round2 (q : ℚ) : ℚ := (roundHalfEvenZ (q * 100) : ℚ) / 100

structure ContrastStats where
  mean : Option ℚ := none
  stddev : Option ℚ := none
  median : Option ℚ := none
  range : Option (ℚ × ℚ) := none
deriving DecidableEq

/-- The four statistics the source fills together from `pixel_values`. -/
def statsOf (pv : List ℚ) : ContrastStats :=
  { mean := some (round2 (meanQ pv)),
    stddev := some (varQ pv),
    median := some (round2 (percentileQ pv 50)),
    range := some (round2 (percentileQ pv 25), round2 (percentileQ pv 75)) }

/-- The damping-ratio pixel pipeline on already-stacked data: optional
negative filtering on storage and loss, then
`0.5*np.divide(loss, storage, where=storage!=0)` (masked entries carry
the uninitialized value), then selection of ROI-positive non-NaN
pixels. -/
def dampingPixelValues (roi storage loss : List ℚ) (uninit : UninitVal)
    (excludeNeg : Bool) : List ℚ :=
  let trip := roi.zip (storage.zip loss)
  let trip :=
    if excludeNeg then trip.filter (fun t => decide (0 ≤ t.2.1 ∧ 0 ≤ t.2.2)) else trip
  trip.filterMap (fun t =>
    if t.2.1 ≠ 0 then
      (if 0 < t.1 then some (1 / 2 * (t.2.2 / t.2.1)) else none)
    else
      match uninit with
      | .nan => none
      | .val q => if 0 < t.1 then some q else none)

/-- Slices where ROI, storage and loss paths are all non-empty. -/
def validDampingSlices (slices : List SliceRec) : List SliceRec :=
  slices.filter (fun s =>
    decide (s.roiFilePath ≠ [] ∧ s.storagePath ≠ [] ∧ s.lossPath ≠ []))

def dampingPixelValuesOf (img : PyStr → List ℚ) (slices : List SliceRec)
    (uninit : UninitVal) (excludeNeg : Bool) : List ℚ :=
  let valid := validDampingSlices slices
  dampingPixelValues (valid.flatMap (fun s => img s.roiFilePath))
    (valid.flatMap (fun s => img s.storagePath))
    (valid.flatMap (fun s => img s.lossPath)) uninit excludeNeg

/-- Slices where ROI and this contrast's path are non-empty. -/
def validDirectSlices (slices : List SliceRec) (c : ContrastName) : List SliceRec :=
  slices.filter (fun s => decide (s.roiFilePath ≠ [] ∧ contrastPathOf c s ≠ []))

/-- The direct-contrast pixel pipeline: optional negative filtering, then
`contrast_stack[roi_stack > 0]`. -/
def directPixelValues (img : PyStr → List ℚ) (slices : List SliceRec)
    (c : ContrastName) (excludeNeg : Bool) : List ℚ :=
  let valid := validDirectSlices slices c
  let pairs := (valid.flatMap (fun s => img s.roiFilePath)).zip
    (valid.flatMap (fun s => img (contrastPathOf c s)))
  let pairs := if excludeNeg then pairs.filter (fun p => decide (0 ≤ p.2)) else pairs
  (pairs.filter (fun p => decide (0 < p.1))).map (fun p => p.2)

/-- The per-contrast rescale factor (`1e-3` for storage and loss, `1e-4`
for attenuation). -/
def contrastScale : ContrastName → ℚ
  | .storage => 1 / 1000
  | .loss => 1 / 1000
  | .attenuation => 1 / 10000
  | _ => 1

/-- The storage/loss/attenuation branch of
`apply_rois_to_mmdi3d_contrasts`: empty stats unless some slice has both
paths and some pixel is selected; otherwise rescale and fill all four
fields. -/
def applyDirect (img : PyStr → List ℚ) (slices : List SliceRec)
    (c : ContrastName) (excludeNeg : Bool) : ContrastStats :=
  if (validDirectSlices slices c).length > 0 then
    (let pv := directPixelValues img slices c excludeNeg
     if pv.length > 0 then statsOf (pv.map (fun x => contrastScale c * x)) else {})
  else {}

/-- The damping-ratio branch of `apply_rois_to_mmdi3d_contrasts`. -/
def applyDamping (img : PyStr → List ℚ) (slices : List SliceRec)
    (uninit : UninitVal) (excludeNeg : Bool) : ContrastStats :=
  if (validDampingSlices slices).length > 0 then
    (let pv := dampingPixelValuesOf img slices uninit excludeNeg
     if pv.length > 0 then statsOf pv else {})
  else {}

/-- `apply_rois_to_mmdi3d_contrasts`, as the per-contrast record. -/
def applyRoisToMmdi3dContrasts (img : PyStr → List ℚ) (slices : List SliceRec)
    (uninit : UninitVal) (excludeNeg : Bool) : ContrastName → ContrastStats
  | .storage => applyDirect img slices .storage excludeNeg
  | .loss => applyDirect img slices .loss excludeNeg
  | .attenuation => applyDirect img slices .attenuation excludeNeg
  | .damping => applyDamping img slices uninit excludeNeg
  | .volumetricStrain => {}

/-- The pixel-value list each contrast's statistics are computed from. -/
def contrastPixelValues (img : PyStr → List ℚ) (slices : List SliceRec)
    (uninit : UninitVal) (excludeNeg : Bool) : ContrastName → List ℚ
  | .storage => directPixelValues img slices .storage excludeNeg
  | .loss => directPixelValues img slices .loss excludeNeg
  | .attenuation => directPixelValues img slices .attenuation excludeNeg
  | .damping => dampingPixelValuesOf img slices uninit excludeNeg
  | .volumetricStrain => []

/-- Concrete inputs for the damping-ratio claim: ROI all-true, storage
`[2, 0]`, loss `[1, 5]`. -/
def exImgC5 : PyStr → List ℚ := fun p =>
  if p = pys "roi5.dcm" then [1, 1]
  else if p = pys "st5.dcm" then [2, 0]
  else if p = pys "ls5.dcm" then [1, 5]
  else []

def exSlicesC5 : List SliceRec := [⟨pys "roi5.dcm", pys "st5.dcm", pys "ls5.dcm", []⟩]

/-- C5: at storage `[2, 0]`, loss `[1, 5]`, ROI all-true, the pixel at
index 0 contributes `0.5*1/2 = 0.25`, but the pixel at index 1 (storage
zero) is left uninitialized by `np.divide(..., where=...)`: it is
excluded exactly when the leftover memory content is NaN, and included
with an arbitrary value otherwise — so the claimed zero-guard exclusion
is not guaranteed by the code.  When the leftover is NaN the computed
mean is `0.25`, as the claim expects. -/
theorem c5_damping_zero_guard :
    (∀ u : UninitVal,
      dampingPixelValues [1, 1] [2, 0] [1, 5] u false
        = match u with
          | .nan => [1 / 4]
          | .val q => [1 / 4, q])
    ∧ (∀ q : ℚ, dampingPixelValuesOf exImgC5 exSlicesC5 (.val q) false = [1 / 4, q])
    ∧ (applyRoisToMmdi3dContrasts exImgC5 exSlicesC5 .nan false .damping).mean
        = some (1 / 4) := by
  have hroi : (validDampingSlices exSlicesC5).flatMap (fun s => exImgC5 s.roiFilePath)
      = [1, 1] := by decide
  have hst : (validDampingSlices exSlicesC5).flatMap (fun s => exImgC5 s.storagePath)
      = [2, 0] := by decide
  have hls : (validDampingSlices exSlicesC5).flatMap (fun s => exImgC5 s.lossPath)
      = [1, 5] := by decide
  have hmain : ∀ u : UninitVal,
      dampingPixelValues [1, 1] [2, 0] [1, 5] u false
        = match u with
          | .nan => [1 / 4]
          | .val q => [1 / 4, q] := by
    intro u
    cases u with
    | nan => norm_num [dampingPixelValues, List.zip, List.filterMap_cons]
    | val q => norm_num [dampingPixelValues, List.zip, List.filterMap_cons]
  refine ⟨hmain, ?_, ?_⟩
  · intro q
    rw [dampingPixelValuesOf]
    simp only [hroi, hst, hls]
    exact hmain (.val q)
  · have hpv : dampingPixelValuesOf exImgC5 exSlicesC5 .nan false = [1 / 4] := by
      rw [dampingPixelValuesOf]
      simp only [hroi, hst, hls]
      exact hmain .nan
    have happ : applyRoisToMmdi3dContrasts exImgC5 exSlicesC5 .nan false .damping
        = statsOf [1 / 4] := by
      show applyDamping exImgC5 exSlicesC5 .nan false = _
      simp only [applyDamping, hpv]
      have h1 : (validDampingSlices exSlicesC5).length > 0 := by decide
      have h2 : ([(1 : ℚ) / 4]).length > 0 := by simp
      rw [if_pos h1, if_pos h2]
    rw [happ, statsOf]
    norm_num [meanQ, listSumQ, round2, roundHalfEvenZ, Int.floor_eq_iff]

/-- Concrete inputs for the direct-contrast claim: a 2×2×1 ROI mask
`[[0,1],[0,1]]` (row-major `[0,1,0,1]`) and contrast values
`[[10,20],[30,40]]`. -/
def exImgC6 : PyStr → List ℚ := fun p =>
  if p = pys "roi1.dcm" then [0, 1, 0, 1]
  else if p = pys "st1.dcm" then [10, 20, 30, 40] else []

def exSlicesC6 : List SliceRec := [⟨pys "roi1.dcm", pys "st1.dcm", [], []⟩]

/-- C6: for the storage contrast with rescale factor `1e-3`, exactly the
two ROI-positive pixels (values 20 and 40) are selected, rescaled to
`0.02` and `0.04`, and the mean rounded to two decimals is `0.03`. -/
theorem c6_direct_contrast_mean :
    directPixelValues exImgC6 exSlicesC6 .storage false = [20, 40]
    ∧ (directPixelValues exImgC6 exSlicesC6 .storage false).length = 2
    ∧ (directPixelValues exImgC6 exSlicesC6 .storage false).map
        (fun x => contrastScale .storage * x) = [1 / 50, 1 / 25]
    ∧ (applyRoisToMmdi3dContrasts exImgC6 exSlicesC6 .nan false .storage).mean
        = some (3 / 100) := by
  have hpv : directPixelValues exImgC6 exSlicesC6 .storage false = [20, 40] := by decide
  refine ⟨hpv, by rw [hpv]; rfl, ?_, ?_⟩
  · rw [hpv]
    norm_num [contrastScale]
  · have h1 : (validDirectSlices exSlicesC6 ContrastName.storage).length > 0 := by decide
    have h2 : ([(20 : ℚ), 40]).length > 0 := by simp
    have happ : applyRoisToMmdi3dContrasts exImgC6 exSlicesC6 .nan false .storage
        = statsOf (([(20 : ℚ), 40]).map (fun x => contrastScale .storage * x)) := by
      show applyDirect exImgC6 exSlicesC6 .storage false = _
      simp only [applyDirect, hpv]
      rw [if_pos h1, if_pos h2]
    rw [happ, statsOf]
    norm_num [meanQ, listSumQ, contrastScale, round2, roundHalfEvenZ, Int.floor_eq_iff]

/-- C7: each contrast's statistics record is either fully populated
(mean, stddev, median and range all set) or entirely empty, and when the
selected pixel list is empty all four fields stay empty — the record is
never partially populated. -/
theorem c7_stats_all_or_nothing :
    (∀ (img : PyStr → List ℚ) (slices : List SliceRec) (uninit : UninitVal)
      (excludeNeg : Bool) (c : ContrastName),
      ((applyRoisToMmdi3dContrasts img slices uninit excludeNeg c).mean.isSome
        ∧ (applyRoisToMmdi3dContrasts img slices uninit excludeNeg c).stddev.isSome
        ∧ (applyRoisToMmdi3dContrasts img slices uninit excludeNeg c).median.isSome
        ∧ (applyRoisToMmdi3dContrasts img slices uninit excludeNeg c).range.isSome)
      ∨ applyRoisToMmdi3dContrasts img slices uninit excludeNeg c = {})
    ∧ (∀ (img : PyStr → List ℚ) (slices : List SliceRec) (uninit : UninitVal)
      (excludeNeg : Bool) (c : ContrastName),
      contrastPixelValues img slices uninit excludeNeg c = [] →
      applyRoisToMmdi3dContrasts img slices uninit excludeNeg c = {}) := by
  constructor
  · intro img slices uninit excludeNeg c
    cases c with
    | storage =>
      simp only [applyRoisToMmdi3dContrasts]
      simp only [applyDirect]
      split_ifs with h1 h2
      · exact Or.inl (by simp [statsOf])
      · exact Or.inr rfl
      · exact Or.inr rfl
    | loss =>
      simp only [applyRoisToMmdi3dContrasts]
      simp only [applyDirect]
      split_ifs with h1 h2
      · exact Or.inl (by simp [statsOf])
      · exact Or.inr rfl
      · exact Or.inr rfl
    | attenuation =>
      simp only [applyRoisToMmdi3dContrasts]
      simp only [applyDirect]
      split_ifs with h1 h2
      · exact Or.inl (by simp [statsOf])
      · exact Or.inr rfl
      · exact Or.inr rfl
    | damping =>
      simp only [applyRoisToMmdi3dContrasts]
      simp only [applyDamping]
      split_ifs with h1 h2
      · exact Or.inl (by simp [statsOf])
      · exact Or.inr rfl
      · exact Or.inr rfl
    | volumetricStrain => exact Or.inr rfl
  · intro img slices uninit excludeNeg c hempty
    cases c with
    | storage =>
      simp only [contrastPixelValues] at hempty
      simp only [applyRoisToMmdi3dContrasts]
      simp only [applyDirect]
      split_ifs with h1 h2
      · rw [hempty] at h2
        simp at h2
      · rfl
      · rfl
    | loss =>
      simp only [contrastPixelValues] at hempty
      simp only [applyRoisToMmdi3dContrasts]
      simp only [applyDirect]
      split_ifs with h1 h2
      · rw [hempty] at h2
        simp at h2
      · rfl
      · rfl
    | attenuation =>
      simp only [contrastPixelValues] at hempty
      simp only [applyRoisToMmdi3dContrasts]
      simp only [applyDirect]
      split_ifs with h1 h2
      · rw [hempty] at h2
        simp at h2
      · rfl
      · rfl
    | damping =>
      simp only [contrastPixelValues] at hempty
      simp only [applyRoisToMmdi3dContrasts]
      simp only [applyDamping]
      split_ifs with h1 h2
      · rw [hempty] at h2
        simp at h2
      · rfl
      · rfl
    | volumetricStrain => rfl

/-- Witness for C7's empty-pixels clause at a concrete input. -/
theorem c7_stats_all_or_nothing_witness :
    applyRoisToMmdi3dContrasts (fun _ => []) [] .nan false .storage = {} :=
  c7_stats_all_or_nothing.2 (fun _ => []) [] .nan false .storage rfl

/-! ## `get_mmdi3d_slice_data` (`mmdi3d_utils.py`, lines 296–345)

The digest-scraping core after input validation: the loop over
`content.keys()` builds `slice_data` entries for `mre.roi.slice.*` keys
and records `mag_series` when a `mre.mag.seriesNumber` key is seen; the
contrast-parent-directory loop then evaluates `mag_series`.  The
`SliceLocation` search over candidate magnitude files (DICOM reads) is
abstracted as `sliceLocFor`, and directory listing as the `invFolders`
argument; the later contrast-path filling (lines 347–372) is further
filesystem I/O outside this core.  In Python, `mag_series` is a local
that is only bound when the digest key is present: evaluating it unbound
raises `NameError`, modelled with `Except`. -/

structure SliceEntry where
  roiFilePath : PyStr
  storagePath : PyStr := []
  lossPath : PyStr := []
  attenuationPath : PyStr := []
  sliceLocation : Option PyStr := none
deriving DecidableEq

/-- One digest key of the scraping loop: an `mre.roi.slice.<n>` key adds
a slice entry (resolved ROI path, abstracted `SliceLocation`, empty
contrast paths); the `mre.mag.seriesNumber` key binds `mag_series`. -/
def scrapeDigestStep (tempDir : PyStr) (sliceLocFor : PyStr → Option PyStr)
    (st : List (PyStr × SliceEntry) × Option PyStr) (kv : PyStr × PyStr) :
    List (PyStr × SliceEntry) × Option PyStr :=
  if (pys "mre.roi.slice.").isPrefixOf kv.1 then
    let sliceNumber := kv.1.drop (pys "mre.roi.slice.").length
    let roiFilePath := joinP tempDir (basenameP (osCleanPath kv.2))
    (assocSet st.1 sliceNumber
      { roiFilePath := roiFilePath, sliceLocation := sliceLocFor sliceNumber }, st.2)
  else if kv.1 = pys "mre.mag.seriesNumber" then (st.1, some kv.2)
  else st

/-- The contrast-parent-directory loop
(`for folder in dir_folder_list(inversion_3d_dir): if
mag_series.startswith(folder): ...`): evaluating the unbound
`mag_series` on a nonempty folder list raises `NameError`. -/
def contrastParentDirE (inversionDir : PyStr) (invFolders : List PyStr)
    (magSeries : Option PyStr) : Except PyStr PyStr :=
  match invFolders with
  | [] => .ok inversionDir
  | f :: fs =>
    match magSeries with
    | none => .error (pys "NameError: name mag_series is not defined")
    | some ms =>
      if f.isPrefixOf ms then .ok (joinP inversionDir f)
      else contrastParentDirE inversionDir fs (some ms)

/-- The post-validation core of `get_mmdi3d_slice_data`: scrape the
digest, then resolve the contrast parent directory. -/
def getMmdi3dSliceDataCore (content : List (PyStr × PyStr)) (tempDir : PyStr)
    (sliceLocFor : PyStr → Option PyStr) (inversionDir : PyStr)
    (invFolders : List PyStr) :
    Except PyStr (List (PyStr × SliceEntry) × PyStr) :=
  let scraped := content.foldl (scrapeDigestStep tempDir sliceLocFor) ([], none)
  match contrastParentDirE inversionDir invFolders scraped.2 with
  | .ok dir => .ok (scraped.1, dir)
  | .error e => .error e

/-- C9 evaluated at the failing input: a digest with an ROI-slice key but
no `mre.mag.seriesNumber` key makes the core raise `NameError` once the
inversion directory has any subfolder — contradicting the claim that
absent digest keys are signalled by sentinels without exceptions.  With
the key present, missing `SliceLocation` and contrast matches are indeed
sentinel-signalled: the slice entry carries `SliceLocation = None` and
empty contrast paths, and no exception is raised. -/
theorem c9_missing_series_number_raises :
    getMmdi3dSliceDataCore [(pys "mre.roi.slice.1", pys "roi1.dcm")] (pys "/tmp")
        (fun _ => none) (pys "/inv") [pys "7"]
      = .error (pys "NameError: name mag_series is not defined")
    ∧ getMmdi3dSliceDataCore
        [(pys "mre.roi.slice.1", pys "roi1.dcm"), (pys "mre.mag.seriesNumber", pys "700")]
        (pys "/tmp") (fun _ => none) (pys "/inv") [pys "7"]
      = .ok ([(pys "1",
          { roiFilePath := pys "/tmp/roi1.dcm", storagePath := [], lossPath := [],
            attenuationPath := [], sliceLocation := none })], pys "/inv/7") := by
  constructor
  · rfl
  · rfl

end MreStats
